import Mathlib

set_option maxRecDepth 100000

/-!
Verification of the email-driven application-status reconciliation engine of
the FunctionalJobAutomation repository.

The embedding below translates, as directly as Lean allows, the functions of
`modules/tracking/email_scanner.py` and `modules/tracking/status_manager.py`
that implement the reconciliation core: company fuzzy matching, the
consistency-corrector rule layer, the record-selection chain and the
per-message apply step of `scan_for_status_updates`, and
`update_application_status`.

Strings are modelled as `List Char` (the inputs of interest are ASCII),
confidence values and match scores as `ℚ`, and the pandas DataFrame holding
the tracking store as a `List Record`.
-/

namespace JobAuto

/-- ASCII lowercasing of one character, modelling Python `str.lower` on the
ASCII inputs this core handles. -/
def lowerChar (c : Char) : Char :=
  if 'A' ≤ c ∧ c ≤ 'Z' then Char.ofNat (c.toNat + 32) else c

/-- Python `str.lower` on a string. -/
def lowerStr (s : List Char) : List Char := s.map lowerChar

/-- Whitespace characters recognised by Python's `str.strip` and the regex
class `\s` (ASCII fragment). -/
def isWs (c : Char) : Bool :=
  c = ' ' ∨ c = '\t' ∨ c = '\n' ∨ c = '\r' ∨ c = '\x0b' ∨ c = '\x0c'

/-- Python `str.strip`: drop whitespace from both ends. -/
def stripStr (s : List Char) : List Char :=
  ((s.dropWhile isWs).reverse.dropWhile isWs).reverse

/-- A character matched by the regex class `[\s\-\.]` used in
`normalize_company` (email_scanner.py line 216). -/
def isSep (c : Char) : Bool := isWs c ∨ c = '-' ∨ c = '.'

/-- Removal of all separators, modelling `re.sub(r'[\s\-\.]', '', name)`. -/
def stripSep (s : List Char) : List Char := s.filter (fun c => ¬ isSep c)

/-- The legal-entity suffixes listed in the regex of `normalize_company`
(email_scanner.py line 218). -/
def legalSuffixes : List (List Char) :=
  ["inc", "llc", "corp", "corporation", "ltd", "limited", "company", "co",
   "group", "services", "solutions", "technologies", "technology", "tech",
   "systems", "international", "global"].map String.data

/-- Does `t` have the shape `\s*(suffix)\.?$`, i.e. optional whitespace, one
legal suffix, an optional final dot, and nothing else?  The suffixes start
with letters, so the whitespace prefix of any regex match is forced to be the
maximal one. -/
def isSuffixTail (t : List Char) : Bool :=
  let rest := t.dropWhile isWs
  legalSuffixes.any (fun a => rest = a ∨ rest = a ++ ['.'])

/-- Offset of the leftmost position of `s` at which the suffix regex of
`normalize_company` matches (the match always extends to the end of the
string). -/
def suffixMatchPos : List Char → Option Nat
  | [] => none
  | c :: rest =>
    if isSuffixTail (c :: rest) then some 0
    else (suffixMatchPos rest).map (· + 1)

/-- `re.sub(r'\s*(inc|llc|...)\.?$', '', name)` of `normalize_company`
(email_scanner.py line 218): delete the leftmost end-anchored legal-suffix
match, if any. -/
def stripLegalSuffix (s : List Char) : List Char :=
  match suffixMatchPos s with
  | some i => s.take i
  | none => s

/-- `normalize_company` (email_scanner.py lines 212-220): the four variants
(lowercased-stripped name, separator-free form, legal-suffix-free form, and
suffix-free separator-free form). -/
def normalize_company (name : List Char) : List (List Char) :=
  let n := stripStr (lowerStr name)
  let nCompact := stripSep n
  let nBase := stripLegalSuffix n
  let nBaseCompact := stripSep nBase
  [n, nCompact, nBase, nBaseCompact]

/-- Python's substring test `a in b` on lists of characters. -/
def listContains (a : List Char) : List Char → Bool
  | [] => a.isEmpty
  | c :: t => a.isPrefixOf (c :: t) || listContains a t

/-- The ordered list of (email-variant, csv-variant) pairs scanned by the two
inner loops of `fuzzy_company_match` (email_scanner.py lines 233-234). -/
def variantPairs (ev cv : List (List Char)) : List (List Char × List Char) :=
  ev.flatMap (fun e => cv.map (fun c => (e, c)))

/-- Substring-tier score of one variant pair (email_scanner.py line 244):
`min(len(a),len(b)) / max(len(a),len(b))`. -/
def containScore (a b : List Char) : ℚ :=
  mkRat (min a.length b.length) (max a.length b.length)

/-- One company's inner double loop of `fuzzy_company_match`
(email_scanner.py lines 233-249): walk the variant pairs in order; an exact
match of two nonempty variants stops the whole search (`Bool` result
`true`); a containment between nonempty variants updates the running
best-match accumulator when its score beats both the current best and the
0.6 floor. -/
def scanPairs (csvC : List Char) :
    List (List Char × List Char) → Option (List Char) × ℚ →
    Bool × (Option (List Char) × ℚ)
  | [], acc => (false, acc)
  | (e, c) :: rest, (b, s) =>
    if e ≠ [] ∧ c ≠ [] then
      if e = c then (true, (b, s))
      else if listContains e c ∨ listContains c e then
        let sc := containScore e c
        if sc > s ∧ sc > mkRat 3 5 then scanPairs csvC rest (some csvC, sc)
        else scanPairs csvC rest (b, s)
      else scanPairs csvC rest (b, s)
    else scanPairs csvC rest (b, s)

/-- The outer loop of `fuzzy_company_match` over the known companies
(email_scanner.py lines 229-249): an exact variant hit returns that company
with score 1.0 at once, otherwise the best-substring accumulator is threaded
through. -/
def fuzzyLoop (ev : List (List Char)) :
    List (List Char) → Option (List Char) × ℚ → Option (List Char) × ℚ
  | [], acc => acc
  | c :: rest, acc =>
    match scanPairs c (variantPairs ev (normalize_company c)) acc with
    | (true, _) => (some c, 1)
    | (false, acc') => fuzzyLoop ev rest acc'

/-- `re.sub(r'[^a-zA-Z0-9]', '', name.lower())` of the acronym tier
(email_scanner.py lines 254-256). -/
def lettersOf (s : List Char) : List Char :=
  (lowerStr s).filter Char.isAlphanum

/-- `fuzzy_company_match` (email_scanner.py lines 204-265): tiered
exact-variant / substring / acronym company matching. -/
def fuzzy_company_match (email_company : List Char)
    (csv_companies : List (List Char)) : Option (List Char) × ℚ :=
  if email_company = [] then (none, 0)
  else
    let ev := normalize_company email_company
    match fuzzyLoop ev csv_companies (none, 0) with
    | (some b, s) => (some b, s)
    | (none, s) =>
      let el := lettersOf email_company
      match csv_companies.find? (fun c => lettersOf c = el ∧ el.length > 2) with
      | some c => (some c, mkRat 17 20)
      | none => (none, s)

/-- String-literal convenience for stating concrete facts. -/
def str (s : String) : List Char := s.data

/-- The substring-tier score a variant pair contributes in
`fuzzy_company_match`: the specification's `min(len(a),len(b)) /
max(len(a),len(b))` for a nonempty, non-equal pair where one string
contains the other, and `0` for every pair the substring tier skips. -/
def pairSubScore (p : List Char × List Char) : ℚ :=
  if p.1 ≠ [] ∧ p.2 ≠ [] ∧ p.1 ≠ p.2 ∧ (listContains p.1 p.2 ∨ listContains p.2 p.1)
  then containScore p.1 p.2 else 0

/-- Largest substring-tier score among a list of variant pairs. -/
def maxSubScore (ps : List (List Char × List Char)) : ℚ :=
  (ps.map pairSubScore).foldr max 0

/-- Largest substring-tier score one known company can reach against the
candidate's variants `ev`. -/
def bestPairScore (ev : List (List Char)) (c : List Char) : ℚ :=
  maxSubScore (variantPairs ev (normalize_company c))

/-- Some variant pair of the candidate (variants `ev`) and the known company
`c` is an exact hit of the exact tier: both sides nonempty and equal. -/
def hasExactPair (ev : List (List Char)) (c : List Char) : Prop :=
  ∃ p ∈ variantPairs ev (normalize_company c), p.1 ≠ [] ∧ p.2 ≠ [] ∧ p.1 = p.2

instance (ev : List (List Char)) (c : List Char) : Decidable (hasExactPair ev c) := by
  unfold hasExactPair
  infer_instance

/-! ## The Classification Judgement and the Consistency Corrector -/

/-- The validated output of `ai_analyze_job_email` (email_scanner.py lines
440-464): after validation every field is present; `None`-able string fields
are `Option`s, `confidence` is a rational. -/
structure Judgement where
  is_job_related : Bool
  company_extracted : Option (List Char)
  company_match : Option (List Char)
  status : Option (List Char)
  confidence : ℚ
  interview_date : Option (List Char)
  reasoning : List Char
deriving DecidableEq

/-- `re.search(needle, ·)` restricted to finding `needle` after the current
position but before any newline: the semantics of the `.*` between two
literals (a dot does not match a newline). -/
def findBeforeNewline (needle : List Char) : List Char → Bool
  | [] => needle.isPrefixOf ([] : List Char)
  | c :: t => needle.isPrefixOf (c :: t) || (c ≠ '\n' && findBeforeNewline needle t)

/-- `re.search('unfortunately.*unable', s)`: some occurrence of
"unfortunately" followed, with no intervening newline, by "unable". -/
def unfortunatelyUnable : List Char → Bool
  | [] => false
  | c :: t =>
    ((str "unfortunately").isPrefixOf (c :: t) &&
      findBeforeNewline (str "unable") ((c :: t).drop (str "unfortunately").length))
    || unfortunatelyUnable t

/-- The ten patterns of `rejection_phrases` (email_scanner.py lines 493-504),
in source order, each as the text predicate `re.search(phrase, ·)` denotes:
the nine literal phrases are substring tests and `'unfortunately.*unable'`
is the regex search above. -/
def rejectionMatchers : List (List Char → Bool) :=
  [listContains (str "unable to employ"),
   listContains (str "unable to sponsor"),
   listContains (str "cannot sponsor"),
   listContains (str "unable to transfer"),
   listContains (str "pursuing other candidates"),
   listContains (str "not moving forward"),
   listContains (str "decided to move forward with other"),
   unfortunatelyUnable,
   listContains (str "regret to inform"),
   listContains (str "not selected")]

/-- `is_rejection` (email_scanner.py lines 506-509): some rejection pattern
matches the lowercased reasoning or the lowercased body content.  The email
subject is not consulted here. -/
def isRejectionSignal (reasoningLower contentLower : List Char) : Bool :=
  rejectionMatchers.any (fun m => m reasoningLower || m contentLower)

/-- The Consistency Corrector (email_scanner.py lines 488-530): the
deterministic rule layer run on the Oracle's parsed judgement.  On a
rejection signal it forces `is_job_related`, rewrites an `"Other"` status to
`"Rejected"`, and lifts a sub-0.7 confidence to 0.8; afterwards the
"thank you for your interest" rule (which does consult the subject) forces
`is_job_related` and lifts the confidence to at least 0.7. -/
def fix_inconsistent (j : Judgement) (content subject : List Char) : Judgement :=
  let reasoningLower := lowerStr j.reasoning
  let contentLower := lowerStr content
  let isRej := isRejectionSignal reasoningLower contentLower
  let j1 := if isRej && !j.is_job_related then { j with is_job_related := true } else j
  let j2 := if isRej && decide (j1.status = some (str "Other")) then
      { j1 with status := some (str "Rejected") } else j1
  let j3 := if isRej && decide (j2.confidence < mkRat 7 10) then
      { j2 with confidence := mkRat 4 5 } else j2
  let thanks := listContains (str "thank you for your interest") contentLower ||
      listContains (str "thank you for your interest") (lowerStr subject)
  if thanks && !j3.is_job_related then
    { j3 with is_job_related := true, confidence := max j3.confidence (mkRat 7 10) }
  else j3

/-- The nine literal strong rejection phrases named by the specification. -/
def claimRejectionPhrases : List (List Char) :=
  [str "unable to employ", str "unable to sponsor", str "cannot sponsor",
   str "unable to transfer", str "pursuing other candidates",
   str "not moving forward", str "decided to move forward with other",
   str "regret to inform", str "not selected"]


/-! ## The tracking store and the Reconciler pipeline -/

/-- One row of the tracking CSV, restricted to the columns the
reconciliation core reads or writes.  `location` is the value of the
`'Location'` column consulted by the record selector (email_scanner.py line
761); when that column is absent — as it is in the store this repository
writes, whose column is `'Work Location'` — the selector sees `''`, which is
the same as every row holding an empty `location`.  `dateApplied` is the
result of `pd.to_datetime(row['Date Applied'], errors='coerce')`, with
`none` for an unparseable date (NaT).  `notes = none` models a NaN cell. -/
structure Record where
  jobId : List Char
  title : List Char
  company : List Char
  location : List Char
  status : List Char
  dateApplied : Option Nat
  notes : Option (List Char)
  interviewDate : Option (List Char)
deriving DecidableEq

/-- The in-memory tracking store: the rows of `applications_df` in order. -/
abbrev Store := List Record

/-- The projection of a row onto the columns the selection logic reads and
the apply step never writes. -/
structure ImmRow where
  company : List Char
  title : List Char
  location : List Char
  dateApplied : Option Nat
deriving DecidableEq

def immView (df : Store) : List ImmRow :=
  df.map (fun r => ⟨r.company, r.title, r.location, r.dateApplied⟩)

/-- Python truthiness of a nullable string. -/
def truthy : Option (List Char) → Bool
  | none => false
  | some s => !s.isEmpty

/-- `pandas.Series.unique`: the distinct values in order of first
occurrence. -/
def uniqueList (l : List (List Char)) : List (List Char) :=
  l.foldl (fun acc c => if c ∈ acc then acc else acc ++ [c]) []

/-- The company fallback of `scan_for_status_updates` (email_scanner.py
lines 687-709): when the Oracle supplied no (truthy) `company_match` but did
extract a company, first try a separator-free case-insensitive equality over
the known companies, then `fuzzy_company_match` accepted above score 0.6. -/
def resolveCompany (companies : List (List Char)) (j : Judgement) :
    Option (List Char) :=
  if truthy j.company_match = false ∧ truthy j.company_extracted = true then
    let e := j.company_extracted.getD []
    let eNorm := stripSep (lowerStr e)
    let cm1 := match companies.find? (fun c => stripSep (lowerStr c) = eNorm) with
      | some c => some c
      | none => j.company_match
    if truthy cm1 = false then
      let fz := fuzzy_company_match e companies
      if truthy fz.1 = true ∧ fz.2 > mkRat 3 5 then fz.1 else cm1
    else cm1
  else j.company_match

/-- The gate of email_scanner.py line 712: `company_match and new_status and
new_status != "Other" and status_confidence >= 0.6`. -/
def gatePass (cm st : Option (List Char)) (conf : ℚ) : Bool :=
  truthy cm && truthy st && decide (st ≠ some (str "Other")) &&
    decide (conf ≥ mkRat 3 5)

/-- Row indices of the store whose immutable view satisfies `p`, in row
order: the index set of a pandas boolean-mask selection. -/
def idxWhere (iv : List ImmRow) (p : ImmRow → Bool) : List Nat :=
  (List.range iv.length).filter (fun i =>
    match iv.get? i with
    | some r => p r
    | none => false)

/-- Python `str.split()` on whitespace, dropping empty pieces. -/
def splitWsAux : List Char → List Char → List (List Char)
  | [], cur => [cur.reverse]
  | c :: t, cur =>
    if isWs c then cur.reverse :: splitWsAux t [] else splitWsAux t (c :: cur)

def splitWsDrop (s : List Char) : List (List Char) :=
  (splitWsAux s []).filter (fun w => w ≠ [])

/-- Python `max(ws, key=len)` (first maximum wins), with a default for the
empty list. -/
def maxByLen (ws : List (List Char)) (dflt : List Char) : List Char :=
  match ws with
  | [] => dflt
  | w :: rest => rest.foldl (fun best x => if x.length > best.length then x else best) w

/-- Removal of spaces only: Python `str.replace(' ', '')`. -/
def stripSpaces (s : List Char) : List Char := s.filter (fun c => c ≠ ' ')

/-- `matching_apps` (email_scanner.py lines 713-745): rows whose `Company`
equals the matched name; else a case-insensitive equality pass; else rows
containing the longest word of the matched name (case-insensitively),
narrowed to an exact company when some found company equals the matched
name up to case and spaces. -/
def matchingIndices (iv : List ImmRow) (cmv : List Char) : List Nat :=
  let idxs0 := idxWhere iv (fun r => r.company = cmv)
  if idxs0 ≠ [] then idxs0 else
  let idxs1 := idxWhere iv (fun r => lowerStr r.company = lowerStr cmv)
  if idxs1 ≠ [] then idxs1 else
  let ws := splitWsDrop (lowerStr cmv)
  let mainWord := maxByLen ws (lowerStr cmv)
  let idxs2 := idxWhere iv (fun r => listContains mainWord (lowerStr r.company))
  if idxs2 = [] then [] else
  let found := uniqueList (idxs2.filterMap (fun i => (iv.get? i).map (fun r => r.company)))
  match found.find? (fun fc => stripSpaces (lowerStr fc) = stripSpaces (lowerStr cmv)) with
  | some fc => idxWhere iv (fun r => r.company = fc)
  | none => idxs2

/-- The per-record title check of the disambiguation loop (email_scanner.py
lines 760-769): a title longer than 3 characters found in the email text as
a full phrase, or whose first three words all appear. -/
def titleHit (iv : List ImmRow) (etext : List Char) (i : Nat) : Bool :=
  match iv.get? i with
  | some r =>
    let t := lowerStr r.title
    !t.isEmpty && decide (t.length > 3) &&
      (listContains t etext || ((splitWsDrop t).take 3).all (fun w => listContains w etext))
  | none => false

/-- The per-record location check of the disambiguation loop
(email_scanner.py lines 771-776): a `'Location'` value longer than 3
characters found verbatim in the email text. -/
def locHit (iv : List ImmRow) (etext : List Char) (i : Nat) : Bool :=
  match iv.get? i with
  | some r =>
    let l := lowerStr r.location
    !l.isEmpty && decide (l.length > 3) && listContains l etext
  | none => false

/-- The disambiguation loop itself (email_scanner.py lines 759-776): for
each candidate row in order, check its title and then its location; the
first row passing either check wins. -/
def findSpecific (iv : List ImmRow) (etext : List Char) : List Nat → Option Nat
  | [] => none
  | i :: rest =>
    if titleHit iv etext i then some i
    else if locHit iv etext i then some i
    else findSpecific iv etext rest

/-- `bulk_rejection_phrases` (email_scanner.py lines 787-790). -/
def bulkRejectionPhrases : List (List Char) :=
  [str "all positions", str "any of our openings", str "all current openings",
   str "future opportunities", str "all applications"]

def isBulkRejection (etext : List Char) : Bool :=
  bulkRejectionPhrases.any (fun p => listContains p etext)

/-- `dates.idxmax()` over the candidate rows (email_scanner.py lines
799-806): the first candidate holding the maximal parseable date, or `none`
when no date parses. -/
def mostRecentIdx (iv : List ImmRow) (idxs : List Nat) : Option Nat :=
  let dated := idxs.filterMap (fun i =>
    ((iv.get? i).bind (fun r => r.dateApplied)).map (fun d => (i, d)))
  match dated with
  | [] => none
  | p :: rest => some (rest.foldl (fun best q => if q.2 > best.2 then q else best) p).1

/-- The multi-candidate narrowing of email_scanner.py lines 751-810: with
more than one candidate, the first title-or-location hit wins; else a bulk
rejection keeps all candidates; else the most recent application by
`Date Applied` (first row if no date parses). -/
def narrowIndices (iv : List ImmRow) (idxs : List Nat) (etext : List Char) : List Nat :=
  if idxs.length ≤ 1 then idxs else
  match findSpecific iv etext idxs with
  | some i => [i]
  | none =>
    if isBulkRejection etext then idxs
    else match mostRecentIdx iv idxs with
      | some i => [i]
      | none => idxs.take 1

/-- The consistency skip of email_scanner.py line 666: reasoning admits the
email is unrelated although `is_job_related` is set. -/
def relevanceSkip (j : Judgement) : Bool :=
  listContains (str "unrelated to any job application") (lowerStr j.reasoning) &&
    j.is_job_related

/-- `email_text = f"{subject} {content}".lower()` (email_scanner.py line 755). -/
def emailTextOf (subject content : List Char) : List Char :=
  lowerStr (subject ++ (' ' :: content))

/-- The set of row indices one message's pipeline run will hand to the apply
step, as a function of the store's immutable view only: empty when the
Oracle failed, the email is not job-related, the relevance skip fires, or
the gate rejects. -/
def selOf (iv : List ImmRow) (m_subject m_content : List Char) :
    Option Judgement → List Nat
  | none => []
  | some j =>
    if !j.is_job_related then []
    else if relevanceSkip j then []
    else
      let cm := resolveCompany (uniqueList (iv.map (fun r => r.company))) j
      if gatePass cm j.status j.confidence then
        narrowIndices iv (matchingIndices iv (cm.getD []))
          (emailTextOf m_subject m_content)
      else []

/-- The reason tags of the no-update outcome (email_scanner.py lines
869-878), carrying the same data the formatted strings carry. -/
inductive UpdateReason where
  | noCompanyMatch (extracted : Option (List Char))
  | unclearStatus (st : Option (List Char))
  | lowConfidence (conf : ℚ)
deriving DecidableEq

def noUpdateReasons (cm : Option (List Char)) (j : Judgement) : List UpdateReason :=
  (if truthy cm = false then [UpdateReason.noCompanyMatch j.company_extracted] else []) ++
  (if truthy j.status = false ∨ j.status = some (str "Other")
   then [UpdateReason.unclearStatus j.status] else []) ++
  (if j.confidence < mkRat 3 5 then [UpdateReason.lowConfidence j.confidence] else [])

def natDigits (n : Nat) : List Char := (toString n).data

def pad2 (n : Nat) : List Char :=
  if n < 10 then '0' :: natDigits n else natDigits n

/-- Rendering of a confidence as in `f"{c:.2f}"` (round-half-up stands in
for float formatting; no claim depends on the digits). -/
def fmt2 (q : ℚ) : List Char :=
  let c := (q * mkRat 100 1 + mkRat 1 2).floor
  let n := c.toNat
  natDigits (n / 100) ++ ('.' :: pad2 (n % 100))

/-- `email_snippet` (email_scanner.py line 834). -/
def snippetOf (subject : List Char) : List Char :=
  subject.take 50 ++ (if subject.length > 50 then str "..." else [])

/-- `multi_app_note` (email_scanner.py lines 836-839); the company count is
loop-invariant in the source because the apply loop never writes the
`Company` column. -/
def multiNoteOf (selCount totalCount : Nat) : List Char :=
  if selCount < totalCount then
    str " | Note: " ++ natDigits totalCount ++
      str " total applications to this company, updated only this one"
  else []

/-- The audit line of email_scanner.py line 841. -/
def mkNote (ts cur new snippet : List Char) (conf : ℚ) (multiNote : List Char) :
    List Char :=
  str "[" ++ ts ++ str "] AI updated: '" ++ cur ++ str "' → '" ++ new ++
  str "' | Email: \"" ++ snippet ++ str "\" | Confidence: " ++ fmt2 conf ++ multiNote

/-- The per-record apply step (email_scanner.py lines 814-857): update only
when the new status differs from the current one; then rewrite the status,
append the audit note (replacing a NaN or empty cell), and write the
interview date when the judgement carries a truthy one. -/
def applyToRecord (newStatus : List Char) (conf : ℚ) (idate : Option (List Char))
    (ts snippet multiNote : List Char) (r : Record) : Record × Bool :=
  if newStatus ≠ r.status then
    let note := mkNote ts r.status newStatus snippet conf multiNote
    ({ r with
        status := newStatus,
        notes := match r.notes with
          | none => some note
          | some cur => if cur = [] then some note else some (cur ++ '\n' :: note),
        interviewDate := if truthy idate then idate else r.interviewDate }, true)
  else (r, false)

/-- The apply loop over the selected rows (email_scanner.py lines 813-857),
returning the updated store and the number of records changed (the
increments of `account_updates`). -/
def applyAll (newStatus : List Char) (conf : ℚ) (idate : Option (List Char))
    (ts snippet multiNote : List Char) : Store → List Nat → Store × Nat
  | df, [] => (df, 0)
  | df, i :: rest =>
    match df.get? i with
    | some r =>
      let ru := applyToRecord newStatus conf idate ts snippet multiNote r
      let res := applyAll newStatus conf idate ts snippet multiNote (df.set i ru.1) rest
      (res.1, (if ru.2 then 1 else 0) + res.2)
    | none => applyAll newStatus conf idate ts snippet multiNote df rest

/-- One fetched message, normalized: cleaned subject and body, and the
Oracle's analysed judgement (`none` when `ai_analyze_job_email` failed). -/
structure Msg where
  subject : List Char
  content : List Char
  ai : Option Judgement
deriving DecidableEq

/-- The status the apply step would write for this message. -/
def targetStatus (m : Msg) : List Char :=
  match m.ai with
  | some j => j.status.getD []
  | none => []

/-- Outcome of one message's pipeline run: the written-back store, how many
records changed, whether the Oracle failure counter was bumped, and the
no-update reasons when the gate rejected. -/
structure MsgResult where
  df : Store
  updates : Nat
  failures : Nat
  reasons : List UpdateReason
deriving DecidableEq

/-- The per-message body of `scan_for_status_updates` (email_scanner.py
lines 644-878): an Oracle failure skips the message and bumps the failure
counter; a non-job-related or self-contradictory judgement skips it; then
the company is resolved, the gate checked, the record set selected and the
apply loop run — or the no-update reasons emitted. -/
def processMessage (df : Store) (m : Msg) (ts : List Char) : MsgResult :=
  match m.ai with
  | none => ⟨df, 0, 1, []⟩
  | some j =>
    if !j.is_job_related then ⟨df, 0, 0, []⟩
    else if relevanceSkip j then ⟨df, 0, 0, []⟩
    else
      let iv := immView df
      let cm := resolveCompany (uniqueList (iv.map (fun r => r.company))) j
      if gatePass cm j.status j.confidence then
        let sel := narrowIndices iv (matchingIndices iv (cm.getD []))
          (emailTextOf m.subject m.content)
        let total := (idxWhere iv (fun r => r.company = cm.getD [])).length
        let res := applyAll (j.status.getD []) j.confidence j.interview_date ts
          (snippetOf m.subject) (multiNoteOf sel.length total) df sel
        ⟨res.1, res.2, 0, []⟩
      else ⟨df, 0, 0, noUpdateReasons cm j⟩

/-- The aggregate of one account's message loop: final store, total record
updates, total Oracle failures. -/
structure PassResult where
  df : Store
  updates : Nat
  failures : Nat
deriving DecidableEq

/-- One scan pass over a fixed message sequence (the messages of the search
window in processing order), starting from the given store. -/
def scanPass (msgs : List Msg) (df : Store) (ts : List Char) : PassResult :=
  match msgs with
  | [] => ⟨df, 0, 0⟩
  | m :: rest =>
    let r := processMessage df m ts
    let rr := scanPass rest r.df ts
    ⟨rr.df, r.updates + rr.updates, r.failures + rr.failures⟩

/-! ## status_manager.py -/

/-- `APPLICATION_STATUSES` (status_manager.py lines 26-36). -/
def APPLICATION_STATUSES : List (List Char) :=
  [str "Applied", str "Assessment", str "Follow-up Required",
   str "Interview Scheduled", str "Interviewed", str "Rejected",
   str "Offered", str "Accepted", str "Declined"]

/-- `df.index[df['Job ID'] == job_id].tolist()` head: the first row holding
the job id. -/
def findIdxByJobId (df : Store) (job_id : List Char) : Option Nat :=
  (List.range df.length).find? (fun i =>
    match df.get? i with
    | some r => r.jobId = job_id
    | none => false)

/-- `update_application_status` (status_manager.py lines 76-108): reject a
status outside the fixed enum; find the row by Job ID; write the status; on
a truthy `notes` argument append a timestamped note (replacing a NaN
cell). -/
def update_application_status (df : Store) (job_id new_status : List Char)
    (notes : Option (List Char)) (ts : List Char) : Store × Bool :=
  if new_status ∉ APPLICATION_STATUSES then (df, false)
  else match findIdxByJobId df job_id with
    | none => (df, false)
    | some i =>
      match df.get? i with
      | some r =>
        let r1 := { r with status := new_status }
        let r2 :=
          if truthy notes = true then
            let note := str "[" ++ ts ++ str "] Status changed to '" ++
              new_status ++ str "': " ++ notes.getD []
            { r1 with notes := match r1.notes with
                | none => some note
                | some cur => some (cur ++ '\n' :: note) }
          else r1
        (df.set i r2, true)
      | none => (df, false)

/-! ## Spec-side selection chain for the multi-candidate claim -/

/-- The title test exactly as the specification's chain states it (full
phrase, or first three title words all present; no length guard). -/
def claimTitleHit (iv : List ImmRow) (etext : List Char) (i : Nat) : Bool :=
  match iv.get? i with
  | some r =>
    let t := lowerStr r.title
    listContains t etext || ((splitWsDrop t).take 3).all (fun w => listContains w etext)
  | none => false

/-- The location test exactly as the specification's chain states it. -/
def claimLocHit (iv : List ImmRow) (etext : List Char) (i : Nat) : Bool :=
  match iv.get? i with
  | some r => listContains (lowerStr r.location) etext
  | none => false

/-- The decision chain exactly as the claim orders it: (a) first
title match over all candidates; (b) else first location match over all
candidates; (c) else bulk phrases select all; (d) else the most recent
application. -/
def claimSelectionChain (iv : List ImmRow) (idxs : List Nat) (etext : List Char) :
    List Nat :=
  match idxs.find? (claimTitleHit iv etext) with
  | some i => [i]
  | none =>
    match idxs.find? (claimLocHit iv etext) with
    | some i => [i]
    | none =>
      if isBulkRejection etext then idxs
      else match mostRecentIdx iv idxs with
        | some i => [i]
        | none => idxs.take 1


/-! ## Theorems -/

/-! ### Company-matcher lemmas -/

lemma maxSubScore_cons (p : List Char × List Char) (ps) :
    maxSubScore (p :: ps) = max (pairSubScore p) (maxSubScore ps) := rfl

lemma maxSubScore_nonneg (ps) : 0 ≤ maxSubScore ps := by
  induction ps with
  | nil => simp [maxSubScore]
  | cons p ps ih => rw [maxSubScore_cons]; exact le_trans ih (le_max_right _ _)

/-- A nonempty equal variant pair anywhere in the pair list makes the inner
double loop of `fuzzy_company_match` report an exact hit. -/
lemma scanPairs_exact (c : List Char) {ps : List (List Char × List Char)}
    (acc : Option (List Char) × ℚ)
    (h : ∃ p ∈ ps, p.1 ≠ [] ∧ p.2 ≠ [] ∧ p.1 = p.2) :
    (scanPairs c ps acc).1 = true := by
  induction ps generalizing acc with
  | nil => simp at h
  | cons p0 rest ih =>
    obtain ⟨b, s⟩ := acc
    obtain ⟨e, cv⟩ := p0
    rcases h with ⟨p, hp, hcond⟩
    rcases List.mem_cons.1 hp with rfl | hmem
    · obtain ⟨h1, h2, h3⟩ := hcond
      simp only [scanPairs]
      rw [if_pos ⟨h1, h2⟩, if_pos h3]
    · simp only [scanPairs]
      split
      · split
        · rfl
        · split
          · split <;> exact ih _ ⟨p, hmem, hcond⟩
          · exact ih _ ⟨p, hmem, hcond⟩
      · exact ih _ ⟨p, hmem, hcond⟩

/-- With no nonempty equal pair present, the inner double loop of
`fuzzy_company_match` updates the accumulator to this company exactly when
its best substring-tier score beats both the incoming best and the 0.6
floor. -/
lemma scanPairs_noExact (c : List Char) {ps : List (List Char × List Char)}
    (h : ∀ p ∈ ps, ¬(p.1 ≠ [] ∧ p.2 ≠ [] ∧ p.1 = p.2)) (b : Option (List Char)) (s : ℚ) :
    scanPairs c ps (b, s) =
      (false, if maxSubScore ps > s ∧ maxSubScore ps > mkRat 3 5
              then (some c, maxSubScore ps) else (b, s)) := by
  induction ps generalizing b s with
  | nil =>
    have h35 : ¬ ((maxSubScore []) > mkRat 3 5) := by decide
    simp only [scanPairs]
    rw [if_neg (by tauto)]
  | cons p0 rest ih =>
    obtain ⟨e, cv⟩ := p0
    have h0 := h _ (List.mem_cons_self _ _)
    have hrest : ∀ p ∈ rest, ¬(p.1 ≠ [] ∧ p.2 ≠ [] ∧ p.1 = p.2) :=
      fun p hp => h p (List.mem_cons_of_mem _ hp)
    rw [maxSubScore_cons]
    by_cases hne : e ≠ [] ∧ cv ≠ []
    · have hneq : e ≠ cv := fun hq => h0 ⟨hne.1, hne.2, hq⟩
      by_cases hcont : listContains e cv ∨ listContains cv e
      · have hps : pairSubScore (e, cv) = containScore e cv := by
          simp only [pairSubScore]; rw [if_pos ⟨hne.1, hne.2, hneq, hcont⟩]
        simp only [scanPairs]
        rw [if_pos hne, if_neg hneq, if_pos hcont]
        set sc := containScore e cv with hsc
        set M := maxSubScore rest with hM
        by_cases hbr : sc > s ∧ sc > mkRat 3 5
        · rw [if_pos hbr, ih hrest]
          have hM0 : 0 ≤ M := maxSubScore_nonneg rest
          rcases le_total sc M with hle | hge
          · rw [max_eq_right (hps ▸ hle)]
            by_cases hM2 : M > sc ∧ M > mkRat 3 5
            · rw [if_pos hM2, if_pos ⟨lt_trans hbr.1 hM2.1, hM2.2⟩]
            · have hMeq : M = sc := le_antisymm (by
                rcases not_and_or.1 hM2 with hx | hx
                · exact le_of_not_lt hx
                · exact absurd (lt_of_lt_of_le hbr.2 hle) hx) hle
              rw [if_neg (by rw [hMeq]; exact fun hx => lt_irrefl _ hx.1),
                 if_pos (by rw [hMeq]; exact hbr)]
              rw [hMeq]
          · rw [max_eq_left (hps ▸ hge)]
            rw [if_neg (fun hx => absurd (lt_of_lt_of_le hx.1 (hps ▸ hge)) (lt_irrefl sc)),
               if_pos (hps ▸ hbr)]
            rw [hps]
        · rw [if_neg hbr, ih hrest]
          set M' := max (pairSubScore (e, cv)) M with hM'
          by_cases hM2 : M > s ∧ M > mkRat 3 5
          · rw [if_pos hM2]
            have hscM : sc ≤ M := by
              by_contra hx
              push_neg at hx
              exact hbr ⟨lt_trans hM2.1 hx, lt_trans hM2.2 hx⟩
            have hmx : max (pairSubScore (e, cv)) M = M := by
              rw [hps]; exact max_eq_right hscM
            rw [hmx] at hM'
            have hgt1 : M' > s := by rw [hM']; exact hM2.1
            have hgt2 : M' > mkRat 3 5 := by rw [hM']; exact hM2.2
            rw [if_pos ⟨hgt1, hgt2⟩]
            rw [hM']
          · rw [if_neg hM2]
            rw [if_neg ?hcond]
            case hcond =>
              intro hx
              rw [hM'] at hx
              rcases max_choice (pairSubScore (e, cv)) M with hc | hc <;> rw [hc] at hx
              · exact hbr ⟨hps ▸ hx.1, hps ▸ hx.2⟩
              · exact hM2 hx
      · have hps : pairSubScore (e, cv) = 0 := by
          simp only [pairSubScore]
          rw [if_neg (by tauto)]
        simp only [scanPairs]
        rw [if_pos hne, if_neg hneq, if_neg hcont, ih hrest, hps,
           max_eq_right (maxSubScore_nonneg rest)]
    · have hps : pairSubScore (e, cv) = 0 := by
        simp only [pairSubScore]
        rw [if_neg (by tauto)]
      simp only [scanPairs]
      rw [if_neg hne, ih hrest, hps, max_eq_right (maxSubScore_nonneg rest)]

lemma not_hasExactPair_iff {ev : List (List Char)} {c : List Char}
    (h : ¬ hasExactPair ev c) :
    ∀ p ∈ variantPairs ev (normalize_company c), ¬(p.1 ≠ [] ∧ p.2 ≠ [] ∧ p.1 = p.2) :=
  fun p hp hcond => h ⟨p, hp, hcond⟩

/-- If some known company has an exact variant hit, the company loop of
`fuzzy_company_match` stops at such a company and returns it with score 1. -/
lemma fuzzyLoop_exact (ev : List (List Char)) {l : List (List Char)}
    (b : Option (List Char)) (s : ℚ) (h : ∃ c ∈ l, hasExactPair ev c) :
    ∃ c ∈ l, hasExactPair ev c ∧ fuzzyLoop ev l (b, s) = (some c, 1) := by
  induction l generalizing b s with
  | nil => simp at h
  | cons c0 rest ih =>
    by_cases h0 : hasExactPair ev c0
    · refine ⟨c0, List.mem_cons_self _ _, h0, ?_⟩
      have hfst := scanPairs_exact c0 (b, s) h0
      simp only [fuzzyLoop]
      rcases hsp : scanPairs c0 (variantPairs ev (normalize_company c0)) (b, s) with ⟨fst, acc'⟩
      rw [hsp] at hfst
      simp only at hfst
      subst hfst
      rfl
    · have hsp := scanPairs_noExact c0 (not_hasExactPair_iff h0) b s
      have hrest : ∃ c ∈ rest, hasExactPair ev c := by
        rcases h with ⟨c, hc, hec⟩
        rcases List.mem_cons.1 hc with rfl | hm
        · exact absurd hec h0
        · exact ⟨c, hm, hec⟩
      simp only [fuzzyLoop, hsp]
      split
      · obtain ⟨c, hc, hec, heq⟩ := ih _ _ hrest
        exact ⟨c, List.mem_cons_of_mem _ hc, hec, heq⟩
      · obtain ⟨c, hc, hec, heq⟩ := ih _ _ hrest
        exact ⟨c, List.mem_cons_of_mem _ hc, hec, heq⟩

/-- The best-score accumulator of the company loop never decreases. -/
lemma fuzzyLoop_snd_mono {ev : List (List Char)} {l : List (List Char)}
    (hne : ∀ c ∈ l, ¬ hasExactPair ev c) (b : Option (List Char)) (s : ℚ) :
    s ≤ (fuzzyLoop ev l (b, s)).2 := by
  induction l generalizing b s with
  | nil => simp [fuzzyLoop]
  | cons c0 rest ih =>
    have h0 := hne c0 (List.mem_cons_self _ _)
    have hrest : ∀ c ∈ rest, ¬ hasExactPair ev c :=
      fun c hc => hne c (List.mem_cons_of_mem _ hc)
    have hsp := scanPairs_noExact c0 (not_hasExactPair_iff h0) b s
    simp only [fuzzyLoop, hsp]
    split
    · rename_i hcond
      exact le_trans (le_of_lt hcond.1) (ih hrest _ _)
    · exact ih hrest _ _

/-- Any company whose best substring-tier score clears the 0.6 floor is
dominated by the final accumulator score of the company loop. -/
lemma fuzzyLoop_snd_ge {ev : List (List Char)} {l : List (List Char)}
    (hne : ∀ c ∈ l, ¬ hasExactPair ev c) (b : Option (List Char)) (s : ℚ) :
    ∀ c ∈ l, mkRat 3 5 < bestPairScore ev c →
      bestPairScore ev c ≤ (fuzzyLoop ev l (b, s)).2 := by
  induction l generalizing b s with
  | nil => simp
  | cons c0 rest ih =>
    intro c hc hbp
    have h0 := hne c0 (List.mem_cons_self _ _)
    have hrest : ∀ c ∈ rest, ¬ hasExactPair ev c :=
      fun c hc => hne c (List.mem_cons_of_mem _ hc)
    have hsp := scanPairs_noExact c0 (not_hasExactPair_iff h0) b s
    simp only [fuzzyLoop, hsp]
    rcases List.mem_cons.1 hc with rfl | hm
    · split
      · rename_i hcond
        exact le_trans (le_of_eq rfl) (fuzzyLoop_snd_mono hrest _ _)
      · rename_i hcond
        have hle : bestPairScore ev c ≤ s := by
          by_contra hx
          push_neg at hx
          exact hcond ⟨hx, hbp⟩
        exact le_trans hle (fuzzyLoop_snd_mono hrest _ _)
    · split
      · exact ih hrest _ _ c hm hbp
      · exact ih hrest _ _ c hm hbp

/-- With no exact hit anywhere, the company loop either leaves the
accumulator untouched or returns some company at its own best substring
score above the 0.6 floor. -/
lemma fuzzyLoop_result {ev : List (List Char)} {l : List (List Char)}
    (hne : ∀ c ∈ l, ¬ hasExactPair ev c) (b : Option (List Char)) (s : ℚ) :
    fuzzyLoop ev l (b, s) = (b, s) ∨
      ∃ c ∈ l, fuzzyLoop ev l (b, s) = (some c, bestPairScore ev c) ∧
        mkRat 3 5 < bestPairScore ev c := by
  induction l generalizing b s with
  | nil => left; rfl
  | cons c0 rest ih =>
    have h0 := hne c0 (List.mem_cons_self _ _)
    have hrest : ∀ c ∈ rest, ¬ hasExactPair ev c :=
      fun c hc => hne c (List.mem_cons_of_mem _ hc)
    have hsp := scanPairs_noExact c0 (not_hasExactPair_iff h0) b s
    simp only [fuzzyLoop, hsp]
    split
    · rename_i hcond
      rcases ih hrest (some c0) (maxSubScore (variantPairs ev (normalize_company c0)))
          with heq | ⟨c, hc, heq, hbp⟩
      · right
        exact ⟨c0, List.mem_cons_self _ _, heq, hcond.2⟩
      · right
        exact ⟨c, List.mem_cons_of_mem _ hc, heq, hbp⟩
    · rcases ih hrest b s with heq | ⟨c, hc, heq, hbp⟩
      · left; exact heq
      · right; exact ⟨c, List.mem_cons_of_mem _ hc, heq, hbp⟩

/-- C6 (amended): a *nonempty* variant of the candidate equal to a variant of
some known company makes `fuzzy_company_match` return such a company with
score exactly 1.0. -/
theorem fuzzy_exact_tier (e : List Char) (l : List (List Char)) (he : e ≠ [])
    (h : ∃ c ∈ l, hasExactPair (normalize_company e) c) :
    ∃ c ∈ l, hasExactPair (normalize_company e) c ∧
      fuzzy_company_match e l = (some c, 1) := by
  obtain ⟨c, hc, hec, heq⟩ := fuzzyLoop_exact (normalize_company e) none 0 h
  refine ⟨c, hc, hec, ?_⟩
  simp only [fuzzy_company_match]
  rw [if_neg he, heq]

/-- C6 (witness): the specification's example
`match("Acme Inc.", {"Acme", "Other Co"}) = ("Acme", 1.0)`. -/
theorem fuzzy_exact_tier_witness :
    (∃ c ∈ [str "Acme", str "Other Co"],
      hasExactPair (normalize_company (str "Acme Inc.")) c ∧
      fuzzy_company_match (str "Acme Inc.") [str "Acme", str "Other Co"] = (some c, 1)) ∧
    fuzzy_company_match (str "Acme Inc.") [str "Acme", str "Other Co"] =
      (some (str "Acme"), 1) :=
  ⟨fuzzy_exact_tier _ _ (by decide) ⟨str "Acme", by decide, by decide⟩, by decide⟩

/-- C6 (counterexample): the suffix-stripped variants of `"Co"` and `"Inc"`
are both the empty string, so a variant pair *is* exactly equal, yet the
matcher (which skips empty variants) returns `(None, 0.0)` rather than the
claimed score-1.0 match. -/
theorem claim_c6_counterexample :
    (∃ c ∈ [str "Inc"],
      ∃ p ∈ variantPairs (normalize_company (str "Co")) (normalize_company c),
        p.1 = p.2) ∧
    fuzzy_company_match (str "Co") [str "Inc"] = (none, 0) ∧
    ((none, (0 : ℚ)) : Option (List Char) × ℚ) ≠ (some (str "Inc"), 1) := by decide

/-- C7 (amended): when no nonempty variant pair is equal and no company
clears the 0.6 substring floor, a known company whose alphanumeric
compaction equals the candidate's (and is longer than 2 characters) is
returned with score 0.85. -/
theorem fuzzy_acronym_tier (e : List Char) (l : List (List Char)) (he : e ≠ [])
    (h1 : ∀ c ∈ l, ¬ hasExactPair (normalize_company e) c)
    (h2 : ∀ c ∈ l, bestPairScore (normalize_company e) c ≤ mkRat 3 5)
    (h3 : ∃ c ∈ l, lettersOf c = lettersOf e ∧ (lettersOf e).length > 2) :
    ∃ c ∈ l, lettersOf c = lettersOf e ∧
      fuzzy_company_match e l = (some c, mkRat 17 20) := by
  have hloop : fuzzyLoop (normalize_company e) l (none, 0) = (none, 0) := by
    rcases fuzzyLoop_result h1 none 0 with heq | ⟨c, hc, heq, hbp⟩
    · exact heq
    · exact absurd hbp (not_lt.2 (h2 c hc))
  rcases hf : l.find? (fun c => decide (lettersOf c = lettersOf e ∧ (lettersOf e).length > 2))
      with _ | c
  · rcases h3 with ⟨c, hc, hc3⟩
    have := List.find?_eq_none.1 hf c hc
    simp only [decide_eq_true_eq] at this
    exact absurd hc3 this
  · have hmem := List.mem_of_find?_eq_some hf
    have hprop := List.find?_some hf
    simp only [decide_eq_true_eq] at hprop
    refine ⟨c, hmem, hprop.1, ?_⟩
    simp only [fuzzy_company_match]
    rw [if_neg he, hloop, hf]

/-- C7 (witness): `match("AB&C", {"ABC"})` reaches the acronym tier (the
`&` is invisible to it but blocks the other tiers) and yields score 0.85. -/
theorem fuzzy_acronym_tier_witness :
    (∃ c ∈ [str "ABC"], lettersOf c = lettersOf (str "AB&C") ∧
      fuzzy_company_match (str "AB&C") [str "ABC"] = (some c, mkRat 17 20)) ∧
    fuzzy_company_match (str "AB&C") [str "ABC"] = (some (str "ABC"), mkRat 17 20) :=
  ⟨fuzzy_acronym_tier _ _ (by decide) (by decide) (by decide)
      ⟨str "ABC", by decide, by decide, by decide⟩, by decide⟩

/-- C7 (counterexample): the specification's acronym example
`match("M3USA", {"M3 USA Corporation"})` never reaches the acronym tier:
the compact candidate variant `"m3usa"` equals the known company's
suffix-stripped compact variant, so the exact tier returns score 1.0, not
0.85. -/
theorem claim_c7_counterexample :
    fuzzy_company_match (str "M3USA") [str "M3 USA Corporation"] =
      (some (str "M3 USA Corporation"), 1) ∧
    ((1 : ℚ) ≠ mkRat 17 20) ∧
    hasExactPair (normalize_company (str "M3USA")) (str "M3 USA Corporation") := by decide

/-- C8: with no exactly-equal variant pair, `fuzzy_company_match` returns a
known company of maximal substring-tier score when that maximum clears the
strict 0.6 floor, at exactly that score (each pair scoring
`min(len)/max(len)`, see `pairSubScore`); and when no substring score
clears the floor and the acronym tier finds nothing, it returns
`(None, 0.0)`. -/
theorem fuzzy_substring_tier (e : List Char) (l : List (List Char)) (he : e ≠ [])
    (h1 : ∀ c ∈ l, ∀ p ∈ variantPairs (normalize_company e) (normalize_company c),
      p.1 ≠ p.2) :
    ((∃ c ∈ l, mkRat 3 5 < bestPairScore (normalize_company e) c) →
      ∃ c ∈ l, fuzzy_company_match e l = (some c, bestPairScore (normalize_company e) c) ∧
        mkRat 3 5 < bestPairScore (normalize_company e) c ∧
        ∀ c' ∈ l, bestPairScore (normalize_company e) c' ≤
          bestPairScore (normalize_company e) c)
    ∧ ((∀ c ∈ l, bestPairScore (normalize_company e) c ≤ mkRat 3 5) →
       (∀ c ∈ l, ¬(lettersOf c = lettersOf e ∧ (lettersOf e).length > 2)) →
       fuzzy_company_match e l = (none, 0)) := by
  have hne : ∀ c ∈ l, ¬ hasExactPair (normalize_company e) c := by
    rintro c hc ⟨p, hp, _, _, hpe⟩
    exact h1 c hc p hp hpe
  constructor
  · rintro ⟨c₁, hc₁, hbp₁⟩
    rcases fuzzyLoop_result hne none 0 with heq | ⟨c, hc, heq, hbp⟩
    · have hge := fuzzyLoop_snd_ge hne none 0 c₁ hc₁ hbp₁
      rw [heq] at hge
      exact absurd (lt_of_lt_of_le hbp₁ hge) (by decide)
    · refine ⟨c, hc, ?_, hbp, ?_⟩
      · simp only [fuzzy_company_match]
        rw [if_neg he, heq]
      · intro c' hc'
        by_cases h35 : mkRat 3 5 < bestPairScore (normalize_company e) c'
        · have hge := fuzzyLoop_snd_ge hne none 0 c' hc' h35
          rw [heq] at hge
          exact hge
        · exact le_trans (not_lt.1 h35) (le_of_lt hbp)
  · intro h2 h3
    have hloop : fuzzyLoop (normalize_company e) l (none, 0) = (none, 0) := by
      rcases fuzzyLoop_result hne none 0 with heq | ⟨c, hc, heq, hbp⟩
      · exact heq
      · exact absurd hbp (not_lt.2 (h2 c hc))
    rcases hf : l.find? (fun c => decide (lettersOf c = lettersOf e ∧ (lettersOf e).length > 2))
        with _ | c
    · simp only [fuzzy_company_match]
      rw [if_neg he, hloop, hf]
    · have hmem := List.mem_of_find?_eq_some hf
      have hprop := List.find?_some hf
      simp only [decide_eq_true_eq] at hprop
      exact absurd hprop (h3 c hmem)

/-- C8 (witness): the specification's example
`match("Totally Unrelated Co", {"Acme", "Globex"}) = (None, 0.0)`. -/
theorem fuzzy_substring_tier_witness :
    fuzzy_company_match (str "Totally Unrelated Co") [str "Acme", str "Globex"] =
      (none, 0) :=
  (fuzzy_substring_tier (str "Totally Unrelated Co") [str "Acme", str "Globex"]
    (by decide) (by decide)).2 (by decide) (by decide)


/-- A strong rejection phrase found in the lowercased body or in the
lowercased Oracle reasoning makes `is_rejection` fire. -/
lemma isRejectionSignal_of_phrase {p rl cl : List Char}
    (hp : p ∈ claimRejectionPhrases)
    (h : listContains p cl = true ∨ listContains p rl = true) :
    isRejectionSignal rl cl = true := by
  fin_cases hp <;>
    · simp only [isRejectionSignal, rejectionMatchers, List.any_cons, List.any_nil,
        Bool.or_eq_true] at *
      tauto

/-- C4 (amended): a strong rejection phrase in the email body or in the
Oracle's reasoning (the subject is not consulted by this rule) forces
`is_job_related` to `true`, rewrites an `"Other"` status to `"Rejected"`,
and lifts a confidence below 0.7 to exactly 0.8. -/
theorem consistency_corrector_rejection (j : Judgement) (content subject : List Char)
    (h : ∃ p ∈ claimRejectionPhrases,
      listContains p (lowerStr content) = true ∨
      listContains p (lowerStr j.reasoning) = true) :
    (fix_inconsistent j content subject).is_job_related = true ∧
    (j.status = some (str "Other") →
      (fix_inconsistent j content subject).status = some (str "Rejected")) ∧
    (j.confidence < mkRat 7 10 →
      (fix_inconsistent j content subject).confidence = mkRat 4 5) := by
  obtain ⟨p, hp, hc⟩ := h
  have hR : isRejectionSignal (lowerStr j.reasoning) (lowerStr content) = true :=
    isRejectionSignal_of_phrase hp (by tauto)
  simp only [fix_inconsistent, hR, Bool.true_and]
  cases hjob : j.is_job_related <;>
    simp only [Bool.not_true, Bool.not_false, Bool.and_false, Bool.and_true,
      if_true, if_false] <;> split_ifs <;> simp_all

/-- C4 (witness): the specification's example judgement
`{is_job_related: false, status: "Other", confidence: 0.3}` with a body
containing "we are unable to sponsor work visas at this time" is corrected
to `is_job_related = true`, `status = "Rejected"`, `confidence ≥ 0.8`. -/
theorem consistency_corrector_rejection_witness :
    (fix_inconsistent
        ⟨false, none, none, some (str "Other"), mkRat 3 10, none, []⟩
        (str "we are unable to sponsor work visas at this time") []).is_job_related = true ∧
    (fix_inconsistent
        ⟨false, none, none, some (str "Other"), mkRat 3 10, none, []⟩
        (str "we are unable to sponsor work visas at this time") []).status = some (str "Rejected") ∧
    (fix_inconsistent
        ⟨false, none, none, some (str "Other"), mkRat 3 10, none, []⟩
        (str "we are unable to sponsor work visas at this time") []).confidence ≥ mkRat 4 5 := by
  obtain ⟨h1, h2, h3⟩ := consistency_corrector_rejection
    ⟨false, none, none, some (str "Other"), mkRat 3 10, none, []⟩
    (str "we are unable to sponsor work visas at this time") []
    ⟨str "unable to sponsor", by decide, Or.inl (by decide)⟩
  exact ⟨h1, h2 rfl, (h3 (by decide)).ge⟩

/-- C4 (counterexample): a strong rejection phrase that appears only in the
subject (not in the body, not in the reasoning) does not trigger the
corrector, contradicting the claim's "body or subject" trigger: the
judgement keeps `is_job_related = false`. -/
theorem consistency_corrector_subject_only_counterexample :
    listContains (str "regret to inform")
      (lowerStr (str "We regret to inform you")) = true ∧
    (fix_inconsistent
        ⟨false, none, none, some (str "Other"), mkRat 3 10, none, []⟩
        (str "hello") (str "We regret to inform you")).is_job_related = false ∧
    (fix_inconsistent
        ⟨false, none, none, some (str "Other"), mkRat 3 10, none, []⟩
        (str "hello") (str "We regret to inform you")).status = some (str "Other") := by
  decide


/-- C2: an Oracle failure (`ai_analyze_job_email` returned `None`, covering
no response, malformed output and error-shaped responses) leaves the store
bit-for-bit unchanged, applies no update, increments the per-account failure
counter by exactly one, and the scan continues with the remaining
messages. -/
theorem oracle_failure_no_mutation (df : Store) (subject content ts : List Char)
    (rest : List Msg) :
    processMessage df ⟨subject, content, none⟩ ts = ⟨df, 0, 1, []⟩ ∧
    scanPass (⟨subject, content, none⟩ :: rest) df ts =
      ⟨(scanPass rest df ts).df, (scanPass rest df ts).updates,
        1 + (scanPass rest df ts).failures⟩ := by
  constructor
  · rfl
  · simp only [scanPass, processMessage, Nat.zero_add]

/-- C10: a selected record already holding the new status is left entirely
unchanged by the apply step — status, notes and interview date untouched —
and the update counter is not incremented (`false` is returned). -/
theorem no_op_equal_status (newStatus : List Char) (conf : ℚ)
    (idate : Option (List Char)) (ts snippet multiNote : List Char) (r : Record)
    (h : r.status = newStatus) :
    applyToRecord newStatus conf idate ts snippet multiNote r = (r, false) := by
  unfold applyToRecord
  rw [if_neg (by simp [h])]

/-- C10 (witness): a record already `Rejected` receiving another `Rejected`
judgement, with an interview date on offer, is returned untouched. -/
theorem no_op_equal_status_witness :
    applyToRecord (str "Rejected") (mkRat 9 10) (some (str "2026-03-01"))
      (str "t") (str "s") []
      ⟨str "J1", str "Engineer", str "Acme", [], str "Rejected", some 5, none, none⟩ =
    (⟨str "J1", str "Engineer", str "Acme", [], str "Rejected", some 5, none, none⟩, false) :=
  no_op_equal_status _ _ _ _ _ _ _ rfl

/-- C3: when the gate of line 712 rejects — no truthy company match, no
truthy non-"Other" status, or confidence below 0.6 — the store is unchanged,
no update counts, and the emitted no-update outcome carries exactly the
failing reasons, including "low confidence" whenever the confidence is below
0.6. -/
theorem low_confidence_gate (df : Store) (subject content ts : List Char) (j : Judgement)
    (hjob : j.is_job_related = true)
    (hskip : relevanceSkip j = false)
    (hgate : gatePass (resolveCompany (uniqueList ((immView df).map (fun r => r.company))) j)
        j.status j.confidence = false) :
    processMessage df ⟨subject, content, some j⟩ ts =
      ⟨df, 0, 0, noUpdateReasons
        (resolveCompany (uniqueList ((immView df).map (fun r => r.company))) j) j⟩ ∧
    noUpdateReasons
        (resolveCompany (uniqueList ((immView df).map (fun r => r.company))) j) j ≠ [] ∧
    (truthy (resolveCompany (uniqueList ((immView df).map (fun r => r.company))) j) = false →
      UpdateReason.noCompanyMatch j.company_extracted ∈
        noUpdateReasons (resolveCompany (uniqueList ((immView df).map (fun r => r.company))) j) j) ∧
    ((truthy j.status = false ∨ j.status = some (str "Other")) →
      UpdateReason.unclearStatus j.status ∈
        noUpdateReasons (resolveCompany (uniqueList ((immView df).map (fun r => r.company))) j) j) ∧
    (j.confidence < mkRat 3 5 →
      UpdateReason.lowConfidence j.confidence ∈
        noUpdateReasons (resolveCompany (uniqueList ((immView df).map (fun r => r.company))) j) j) := by
  set cm := resolveCompany (uniqueList ((immView df).map (fun r => r.company))) j with hcm
  refine ⟨?_, ?_, ?_, ?_, ?_⟩
  · simp only [processMessage, hjob, Bool.not_true, if_false, hskip, ← hcm, hgate]
    simp
  · by_cases h1 : truthy cm = false
    · simp [noUpdateReasons, h1]
    · by_cases h2 : truthy j.status = false ∨ j.status = some (str "Other")
      · simp [noUpdateReasons, if_pos h2]
      · by_cases h3 : j.confidence < mkRat 3 5
        · simp [noUpdateReasons, h3]
        · exfalso
          apply absurd hgate
          simp only [gatePass, Bool.not_eq_false, Bool.and_eq_true, decide_eq_true_eq]
          push_neg at h2 h3
          refine ⟨⟨⟨?_, ?_⟩, ?_⟩, ?_⟩
          · simpa using h1
          · simpa using h2.1
          · exact h2.2
          · exact h3
  · intro hx
    simp [noUpdateReasons, hx]
  · intro hx
    simp [noUpdateReasons, if_pos hx]
  · intro hx
    simp [noUpdateReasons, hx]

/-- C3 (witness): confidence 0.5 with a valid company match and a valid
status yields no update and a recorded "low confidence" reason. -/
theorem low_confidence_gate_witness :
    (processMessage
      [⟨str "J1", str "Engineer", str "Acme", [], str "Applied", some 5, none, none⟩]
      ⟨str "s", str "c",
        some ⟨true, some (str "Acme"), some (str "Acme"), some (str "Rejected"),
          mkRat 1 2, none, []⟩⟩ (str "t")).df =
      [⟨str "J1", str "Engineer", str "Acme", [], str "Applied", some 5, none, none⟩] ∧
    (processMessage
      [⟨str "J1", str "Engineer", str "Acme", [], str "Applied", some 5, none, none⟩]
      ⟨str "s", str "c",
        some ⟨true, some (str "Acme"), some (str "Acme"), some (str "Rejected"),
          mkRat 1 2, none, []⟩⟩ (str "t")).updates = 0 ∧
    UpdateReason.lowConfidence (mkRat 1 2) ∈
      (processMessage
        [⟨str "J1", str "Engineer", str "Acme", [], str "Applied", some 5, none, none⟩]
        ⟨str "s", str "c",
          some ⟨true, some (str "Acme"), some (str "Acme"), some (str "Rejected"),
            mkRat 1 2, none, []⟩⟩ (str "t")).reasons := by
  obtain ⟨h1, _, _, _, h5⟩ := low_confidence_gate
    [⟨str "J1", str "Engineer", str "Acme", [], str "Applied", some 5, none, none⟩]
    (str "s") (str "c") (str "t")
    ⟨true, some (str "Acme"), some (str "Acme"), some (str "Rejected"), mkRat 1 2, none, []⟩
    rfl (by decide) (by decide)
  rw [h1]
  exact ⟨rfl, rfl, h5 (by decide)⟩

/-- The status of an applied record is the new status or the old one. -/
lemma applyToRecord_status (newStatus : List Char) (conf : ℚ)
    (idate : Option (List Char)) (ts snippet multiNote : List Char) (r : Record) :
    ((applyToRecord newStatus conf idate ts snippet multiNote r).1).status = newStatus ∨
    ((applyToRecord newStatus conf idate ts snippet multiNote r).1).status = r.status := by
  unfold applyToRecord
  split
  · left; rfl
  · right; rfl

/-- Every row of the store after the apply loop carries the new status or
the status of some pre-existing row. -/
lemma applyAll_mem_status (newStatus : List Char) (conf : ℚ)
    (idate : Option (List Char)) (ts snippet multiNote : List Char) :
    ∀ (sel : List Nat) (df : Store) (r : Record),
      r ∈ (applyAll newStatus conf idate ts snippet multiNote df sel).1 →
      r.status = newStatus ∨ ∃ r0 ∈ df, r.status = r0.status := by
  intro sel
  induction sel with
  | nil => intro df r hr; exact Or.inr ⟨r, hr, rfl⟩
  | cons i rest ih =>
    intro df r hr
    simp only [applyAll] at hr
    rcases hg : df.get? i with _ | r0
    · rw [hg] at hr
      exact ih df r hr
    · rw [hg] at hr
      simp only at hr
      rcases ih _ r hr with h | ⟨r1, hr1, hst⟩
      · exact Or.inl h
      · rcases List.mem_or_eq_of_mem_set hr1 with hmem | rfl
        · exact Or.inr ⟨r1, hmem, hst⟩
        · rcases applyToRecord_status newStatus conf idate ts snippet multiNote r0 with h | h
          · exact Or.inl (hst.trans h)
          · exact Or.inr ⟨r0, List.get?_mem hg, hst.trans h⟩

/-- Shape of `update_application_status`: either the store is untouched, or
one row is replaced by a row whose status is the (validated) new status. -/
lemma update_application_status_shape (df : Store) (job_id new_status : List Char)
    (notes : Option (List Char)) (ts : List Char) :
    (update_application_status df job_id new_status notes ts).1 = df ∨
    (new_status ∈ APPLICATION_STATUSES ∧
     ∃ i r2, r2.status = new_status ∧
       (update_application_status df job_id new_status notes ts).1 = df.set i r2) := by
  unfold update_application_status
  split
  · left; rfl
  · rename_i hval
    split
    · left; rfl
    · rename_i i hidx
      split
      · rename_i r0 hg
        exact Or.inr ⟨not_not.1 hval, i, _, by split <;> rfl, rfl⟩
      · left; rfl

/-- C9 (amended): `update_application_status` preserves the status-enum
invariant unconditionally (it validates against `APPLICATION_STATUSES`);
the Reconciler's apply step preserves it provided the judgement's status is
itself one of the nine enum values — the scanner writes the Oracle's status
string unvalidated, its gate excluding only `"Other"` and empty. -/
theorem statuses_stay_in_enum (df : Store)
    (hdf : ∀ r ∈ df, r.status ∈ APPLICATION_STATUSES) :
    (∀ job_id new_status notes ts,
      ∀ r ∈ (update_application_status df job_id new_status notes ts).1,
        r.status ∈ APPLICATION_STATUSES) ∧
    (∀ (m : Msg) ts,
      (∀ j, m.ai = some j → truthy j.status = true →
        j.status.getD [] ∈ APPLICATION_STATUSES) →
      ∀ r ∈ (processMessage df m ts).df, r.status ∈ APPLICATION_STATUSES) := by
  constructor
  · intro job_id new_status notes ts r hr
    rcases update_application_status_shape df job_id new_status notes ts with heq | ⟨hval, i, r2, hst, heq⟩
    · rw [heq] at hr
      exact hdf r hr
    · rw [heq] at hr
      rcases List.mem_or_eq_of_mem_set hr with hmem | rfl
      · exact hdf r hmem
      · rw [hst]
        exact hval
  · intro m ts hm r hr
    rcases hma : m.ai with _ | j
    · simp only [processMessage, hma] at hr
      exact hdf r hr
    · simp only [processMessage, hma] at hr
      split at hr
      · exact hdf r hr
      · split at hr
        · exact hdf r hr
        · split at hr
          · rename_i hgate
            simp only at hr
            rcases applyAll_mem_status _ _ _ _ _ _ _ _ _ hr with h | ⟨r0, hr0, hst⟩
            · rw [h]
              have htr : truthy j.status = true := by
                simp only [gatePass, Bool.and_eq_true] at hgate
                exact hgate.1.1.2
              exact hm j hma htr
            · rw [hst]
              exact hdf r0 hr0
          · exact hdf r hr

/-- C9 (witness): a concrete valid store stays valid under a direct status
update to `Offered` and under a scanned `Rejected` judgement. -/
theorem statuses_stay_in_enum_witness :
    (∀ r ∈ (update_application_status
        [⟨str "J1", str "Engineer", str "Acme", [], str "Applied", some 5, none, none⟩]
        (str "J1") (str "Offered") none (str "t")).1,
      r.status ∈ APPLICATION_STATUSES) ∧
    (∀ r ∈ (processMessage
        [⟨str "J1", str "Engineer", str "Acme", [], str "Applied", some 5, none, none⟩]
        ⟨str "s", str "c", some ⟨true, some (str "Acme"), some (str "Acme"),
          some (str "Rejected"), mkRat 9 10, none, []⟩⟩ (str "t")).df,
      r.status ∈ APPLICATION_STATUSES) :=
  ⟨(statuses_stay_in_enum
      [⟨str "J1", str "Engineer", str "Acme", [], str "Applied", some 5, none, none⟩]
      (by decide)).1 (str "J1") (str "Offered") none (str "t"),
   (statuses_stay_in_enum
      [⟨str "J1", str "Engineer", str "Acme", [], str "Applied", some 5, none, none⟩]
      (by decide)).2
    ⟨str "s", str "c", some ⟨true, some (str "Acme"), some (str "Acme"),
      some (str "Rejected"), mkRat 9 10, none, []⟩⟩ (str "t")
    (by intro j hj htr; cases hj; decide)⟩

/-- C9 (counterexample): a judgement whose status string is `"Banana"`
(confidence 0.9, matching company) passes the scanner's gate and is written
into the store verbatim, violating the fixed-enum invariant. -/
theorem claim_c9_counterexample :
    ((processMessage
        [⟨str "J1", str "Engineer", str "Acme", [], str "Applied", some 5, none, none⟩]
        ⟨str "s", str "c", some ⟨true, some (str "Acme"), some (str "Acme"),
          some (str "Banana"), mkRat 9 10, none, []⟩⟩ (str "t")).df.map Record.status) =
      [str "Banana"] ∧
    str "Banana" ∉ APPLICATION_STATUSES := by decide

/-- The `idxmax` fold over dated candidates: the result is one of the
candidates, its date dominates all of them, and every candidate strictly
before its (first) occurrence has a strictly smaller date. -/
lemma foldMax_spec (rest : List (Nat × Nat)) :
    ∀ (p : Nat × Nat),
      ((rest.foldl (fun best q => if q.2 > best.2 then q else best) p) ∈ p :: rest) ∧
      (∀ q ∈ p :: rest,
        q.2 ≤ (rest.foldl (fun best q => if q.2 > best.2 then q else best) p).2) ∧
      (∃ l1 l2,
        p :: rest =
          l1 ++ (rest.foldl (fun best q => if q.2 > best.2 then q else best) p) :: l2 ∧
        ∀ q ∈ l1, q.2 < (rest.foldl (fun best q => if q.2 > best.2 then q else best) p).2) := by
  induction rest with
  | nil =>
    intro p
    exact ⟨List.mem_cons_self _ _, by simp, [], [], rfl, by simp⟩
  | cons q0 rest ih =>
    intro p
    simp only [List.foldl_cons]
    by_cases hgt : q0.2 > p.2
    · rw [if_pos hgt]
      obtain ⟨hmem, hbound, l1, l2, heq, hlt⟩ := ih q0
      refine ⟨?_, ?_, ?_⟩
      · exact List.mem_cons_of_mem _ hmem
      · intro q hq
        rcases List.mem_cons.1 hq with rfl | hq2
        · exact le_trans (le_of_lt hgt) (hbound q0 (List.mem_cons_self _ _))
        · exact hbound q hq2
      · refine ⟨p :: l1, l2, by rw [List.cons_append, heq], ?_⟩
        intro q hq
        rcases List.mem_cons.1 hq with rfl | hq2
        · exact lt_of_lt_of_le hgt (hbound q0 (List.mem_cons_self _ _))
        · exact hlt q hq2
    · rw [if_neg hgt]
      push_neg at hgt
      obtain ⟨hmem, hbound, l1, l2, heq, hlt⟩ := ih p
      refine ⟨?_, ?_, ?_⟩
      · rcases List.mem_cons.1 hmem with h | h
        · rw [h]; exact List.mem_cons_self _ _
        · exact List.mem_cons_of_mem _ (List.mem_cons_of_mem _ h)
      · intro q hq
        rcases List.mem_cons.1 hq with rfl | hq2
        · exact hbound q (List.mem_cons_self _ _)
        · rcases List.mem_cons.1 hq2 with rfl | hq3
          · exact le_trans hgt (hbound p (List.mem_cons_self _ _))
          · exact hbound q (List.mem_cons_of_mem _ hq3)
      · rcases l1 with _ | ⟨a, l1'⟩
        · simp only [List.nil_append, List.cons.injEq] at heq
          refine ⟨[], q0 :: rest, ?_, by simp⟩
          rw [List.nil_append, ← heq.1]
        · simp only [List.cons_append, List.cons.injEq] at heq
          refine ⟨p :: q0 :: l1', l2, ?_, ?_⟩
          · rw [List.cons_append, List.cons_append, ← heq.2]
          · intro q hq
            have hpa : p ∈ a :: l1' := by rw [heq.1]; exact List.mem_cons_self _ _
            rcases List.mem_cons.1 hq with rfl | hq2
            · exact hlt q hpa
            · rcases List.mem_cons.1 hq2 with rfl | hq3
              · exact lt_of_le_of_lt hgt (hlt p hpa)
              · exact hlt q (List.mem_cons_of_mem _ hq3)

/-- When no candidate passes the title or location check, the
disambiguation loop finds nothing. -/
lemma findSpecific_none {iv : List ImmRow} {etext : List Char} :
    ∀ {idxs : List Nat},
      (∀ i ∈ idxs, titleHit iv etext i = false ∧ locHit iv etext i = false) →
      findSpecific iv etext idxs = none := by
  intro idxs
  induction idxs with
  | nil => intro _; rfl
  | cons i rest ih =>
    intro h
    have hi := h i (List.mem_cons_self _ _)
    simp only [findSpecific, hi.1, hi.2, if_false]
    exact ih (fun j hj => h j (List.mem_cons_of_mem _ hj))

/-- The disambiguation loop returns the first candidate passing its
per-record title-then-location check. -/
lemma findSpecific_first {iv : List ImmRow} {etext : List Char} :
    ∀ (l1 : List Nat) (i : Nat) (l2 : List Nat),
      (∀ j ∈ l1, titleHit iv etext j = false ∧ locHit iv etext j = false) →
      (titleHit iv etext i = true ∨ locHit iv etext i = true) →
      findSpecific iv etext (l1 ++ i :: l2) = some i := by
  intro l1
  induction l1 with
  | nil =>
    intro i l2 _ hi
    rcases hi with hi | hi
    · simp [findSpecific, hi]
    · simp only [List.nil_append, findSpecific, hi]
      split <;> rfl
  | cons a l1' ih =>
    intro i l2 h hi
    have ha := h a (List.mem_cons_self _ _)
    simp only [List.cons_append, findSpecific, ha.1, ha.2, if_false]
    exact ih i l2 (fun j hj => h j (List.mem_cons_of_mem _ hj)) hi

/-- C5 (amended): for more than one candidate record the selector applies,
in row order, a per-record check of the title (length > 3; full phrase or
all of the first three words) and then that record's `'Location'` value
(length > 3; verbatim substring) — the first record passing either check is
selected alone; otherwise a bulk-rejection phrase selects all candidates;
otherwise the single candidate carrying the maximal parseable
`Date Applied` (earlier row on ties), or the first candidate when no date
parses. -/
theorem record_selector_chain (iv : List ImmRow) (idxs : List Nat) (etext : List Char)
    (hlen : 1 < idxs.length) :
    (∀ l1 i l2, idxs = l1 ++ i :: l2 →
      (∀ j ∈ l1, titleHit iv etext j = false ∧ locHit iv etext j = false) →
      (titleHit iv etext i = true ∨ locHit iv etext i = true) →
      narrowIndices iv idxs etext = [i]) ∧
    ((∀ i ∈ idxs, titleHit iv etext i = false ∧ locHit iv etext i = false) →
      isBulkRejection etext = true →
      narrowIndices iv idxs etext = idxs) ∧
    ((∀ i ∈ idxs, titleHit iv etext i = false ∧ locHit iv etext i = false) →
      isBulkRejection etext = false →
      ((idxs.filterMap (fun i =>
          ((iv.get? i).bind (fun r => r.dateApplied)).map (fun d => (i, d))) = [] →
        narrowIndices iv idxs etext = idxs.take 1) ∧
       (idxs.filterMap (fun i =>
          ((iv.get? i).bind (fun r => r.dateApplied)).map (fun d => (i, d))) ≠ [] →
        ∃ k d l1 l2,
          narrowIndices iv idxs etext = [k] ∧
          idxs.filterMap (fun i =>
            ((iv.get? i).bind (fun r => r.dateApplied)).map (fun d => (i, d))) =
            l1 ++ (k, d) :: l2 ∧
          (∀ q ∈ idxs.filterMap (fun i =>
            ((iv.get? i).bind (fun r => r.dateApplied)).map (fun d => (i, d))),
            q.2 ≤ d) ∧
          (∀ q ∈ l1, q.2 < d)))) := by
  have hlen' : ¬ idxs.length ≤ 1 := not_le.2 hlen
  refine ⟨?_, ?_, ?_⟩
  · intro l1 i l2 heq h1 hi
    unfold narrowIndices
    rw [if_neg hlen', heq, findSpecific_first l1 i l2 h1 hi]
  · intro hall hbulk
    unfold narrowIndices
    rw [if_neg hlen', findSpecific_none hall]
    simp only [hbulk, if_true]
  · intro hall hbulk
    constructor
    · intro hdated
      unfold narrowIndices
      rw [if_neg hlen', findSpecific_none hall]
      simp only [hbulk, if_false]
      unfold mostRecentIdx
      rw [hdated]
      simp
    · intro hdated
      rcases hd : idxs.filterMap (fun i =>
          ((iv.get? i).bind (fun r => r.dateApplied)).map (fun d => (i, d))) with _ | ⟨p, rest⟩
      · exact absurd hd hdated
      · obtain ⟨hmem, hbound, lA, lB, hsplit, hlt⟩ := foldMax_spec rest p
        set r := rest.foldl (fun best q => if q.2 > best.2 then q else best) p with hr
        refine ⟨r.1, r.2, lA, lB, ?_, ?_, ?_, ?_⟩
        · unfold narrowIndices
          rw [if_neg hlen', findSpecific_none hall]
          simp only [hbulk, if_false]
          unfold mostRecentIdx
          rw [hd]
          simp [← hr]
        · simpa using hsplit
        · intro q hq
          simpa using hbound q hq
        · simpa using hlt

/-- C5 (witness): of two Acme records, only the second's title appears in
the email, so the selector narrows to exactly that record. -/
theorem record_selector_chain_witness :
    narrowIndices
      [⟨str "Acme", str "xxxx", str "", some 1⟩,
       ⟨str "Acme", str "data engineer", str "", some 2⟩]
      [0, 1] (str "regarding the data engineer position") = [1] :=
  (record_selector_chain _ [0, 1] _ (by decide)).1 [0] 1 [] rfl (by decide) (by decide)

/-- C5 (counterexample): with record 0 matched only by location and record
1 matched by title, the source selects record 0 (its per-record loop checks
location before moving to the next record), while the claim's chain — all
titles first, then locations — selects record 1. -/
theorem claim_c5_counterexample :
    narrowIndices
      [⟨str "Acme", str "xxxx", str "new york office", some 1⟩,
       ⟨str "Acme", str "data engineer", str "", some 2⟩]
      [0, 1] (str "about the data engineer role at our new york office") = [0] ∧
    claimSelectionChain
      [⟨str "Acme", str "xxxx", str "new york office", some 1⟩,
       ⟨str "Acme", str "data engineer", str "", some 2⟩]
      [0, 1] (str "about the data engineer role at our new york office") = [1] ∧
    ([0] : List Nat) ≠ [1] := by decide

/-- Reading off the written index is unaffected by `List.set`. -/
lemma get_set_ne {α : Type} (l : List α) {i j : Nat} (a : α) (h : i ≠ j) :
    (l.set i a).get? j = l.get? j := by
  rw [List.get?_eq_getElem?, List.get?_eq_getElem?, List.getElem?_set_ne h]

lemma get_set_self {α : Type} (l : List α) {i : Nat} (a b : α) (h : l.get? i = some b) :
    (l.set i a).get? i = some a := by
  rw [List.get?_eq_getElem?] at h ⊢
  rw [List.getElem?_set_self']
  simp [h]

/-- Writing back the value already stored is the identity. -/
lemma set_get_self {α : Type} : ∀ (l : List α) (i : Nat) (b : α),
    l.get? i = some b → l.set i b = l
  | [], i, b, h => by simp at h
  | a :: t, 0, b, h => by
    simp only [List.get?] at h
    cases h
    rfl
  | a :: t, i + 1, b, h => by
    simp only [List.get?] at h
    simp [List.set, set_get_self t i b h]

/-- After the apply step a record's status is the new status (written when
different, already equal otherwise). -/
lemma applyToRecord_set_status (newStatus : List Char) (conf : ℚ)
    (idate : Option (List Char)) (ts snippet multiNote : List Char) (r : Record) :
    ((applyToRecord newStatus conf idate ts snippet multiNote r).1).status = newStatus := by
  unfold applyToRecord
  split
  · rfl
  · rename_i h
    simp only [ne_eq, not_not] at h
    simpa using h.symm

/-- The apply step is the identity, reporting no update, on a record
already at the new status. -/
lemma applyToRecord_noop (newStatus : List Char) (conf : ℚ)
    (idate : Option (List Char)) (ts snippet multiNote : List Char) (r : Record)
    (h : r.status = newStatus) :
    applyToRecord newStatus conf idate ts snippet multiNote r = (r, false) := by
  unfold applyToRecord
  rw [if_neg (by simp [h])]

/-- The apply step never writes the company, title, location or
date-applied columns. -/
lemma applyToRecord_immRow (newStatus : List Char) (conf : ℚ)
    (idate : Option (List Char)) (ts snippet multiNote : List Char) (r : Record) :
    (ImmRow.mk ((applyToRecord newStatus conf idate ts snippet multiNote r).1).company
      ((applyToRecord newStatus conf idate ts snippet multiNote r).1).title
      ((applyToRecord newStatus conf idate ts snippet multiNote r).1).location
      ((applyToRecord newStatus conf idate ts snippet multiNote r).1).dateApplied) =
    ⟨r.company, r.title, r.location, r.dateApplied⟩ := by
  unfold applyToRecord
  split <;> rfl

lemma immView_get (df : Store) (i : Nat) :
    (immView df).get? i = (df.get? i).map (fun r => ⟨r.company, r.title, r.location, r.dateApplied⟩) := by
  rw [immView, List.get?_eq_getElem?, List.get?_eq_getElem?, List.getElem?_map]

lemma immView_set (df : Store) (i : Nat) (r' : Record) :
    immView (df.set i r') =
      (immView df).set i ⟨r'.company, r'.title, r'.location, r'.dateApplied⟩ := by
  rw [immView, immView, List.map_set]

/-- The apply loop preserves the store's immutable view. -/
lemma applyAll_immView (newStatus : List Char) (conf : ℚ)
    (idate : Option (List Char)) (ts snippet multiNote : List Char) :
    ∀ (sel : List Nat) (df : Store),
      immView (applyAll newStatus conf idate ts snippet multiNote df sel).1 = immView df := by
  intro sel
  induction sel with
  | nil => intro df; rfl
  | cons i rest ih =>
    intro df
    simp only [applyAll]
    rcases hg : df.get? i with _ | r
    · exact ih df
    · simp only
      rw [ih, immView_set, applyToRecord_immRow]
      apply set_get_self
      rw [immView_get, hg]
      rfl

/-- Rows not selected are untouched by the apply loop. -/
lemma applyAll_get_nmem (newStatus : List Char) (conf : ℚ)
    (idate : Option (List Char)) (ts snippet multiNote : List Char) :
    ∀ (sel : List Nat) (df : Store) (i : Nat), i ∉ sel →
      ((applyAll newStatus conf idate ts snippet multiNote df sel).1).get? i = df.get? i := by
  intro sel
  induction sel with
  | nil => intro df i _; rfl
  | cons j rest ih =>
    intro df i hni
    have hij : i ≠ j := fun h => hni (h ▸ List.mem_cons_self _ _)
    have hirest : i ∉ rest := fun h => hni (List.mem_cons_of_mem _ h)
    simp only [applyAll]
    rcases hg : df.get? j with _ | r
    · exact ih df i hirest
    · simp only
      rw [ih _ i hirest, get_set_ne _ _ (fun h => hij h.symm)]

/-- Every selected (in-range) row ends the apply loop at the new
status. -/
lemma applyAll_status_sel (newStatus : List Char) (conf : ℚ)
    (idate : Option (List Char)) (ts snippet multiNote : List Char) :
    ∀ (sel : List Nat) (df : Store) (i : Nat), i ∈ sel →
      (((applyAll newStatus conf idate ts snippet multiNote df sel).1).get? i).map Record.status =
        (df.get? i).map (fun _ => newStatus) := by
  intro sel
  induction sel with
  | nil => intro df i h; simp at h
  | cons j rest ih =>
    intro df i hi
    simp only [applyAll]
    rcases hg : df.get? j with _ | r
    · -- row j out of range: nothing happens at this step
      by_cases hir : i ∈ rest
      · exact ih df i hir
      · have hi0 : i = j := by
          rcases List.mem_cons.1 hi with h | h
          · exact h
          · exact absurd h hir
        subst hi0
        rw [applyAll_get_nmem _ _ _ _ _ _ _ _ _ hir, hg]
        rfl
    · simp only
      by_cases hir : i ∈ rest
      · rw [ih _ i hir]
        by_cases hij : i = j
        · subst hij
          rw [get_set_self _ _ r hg, hg]
          rfl
        · rw [get_set_ne _ _ (fun h => hij h.symm)]
      · have hi0 : i = j := by
          rcases List.mem_cons.1 hi with h | h
          · exact h
          · exact absurd h hir
        subst hi0
        rw [applyAll_get_nmem _ _ _ _ _ _ _ _ _ hir, get_set_self _ _ r hg, hg]
        simp [applyToRecord_set_status]

/-- The apply loop is the identity, with zero updates, when every
selected row already holds the new status. -/
lemma applyAll_noop (newStatus : List Char) (conf : ℚ)
    (idate : Option (List Char)) (ts snippet multiNote : List Char) :
    ∀ (sel : List Nat) (df : Store),
      (∀ i ∈ sel, ∀ r, df.get? i = some r → r.status = newStatus) →
      applyAll newStatus conf idate ts snippet multiNote df sel = (df, 0) := by
  intro sel
  induction sel with
  | nil => intro df _; rfl
  | cons j rest ih =>
    intro df h
    simp only [applyAll]
    rcases hg : df.get? j with _ | r
    · exact ih df (fun i hi => h i (List.mem_cons_of_mem _ hi))
    · have hst : r.status = newStatus := h j (List.mem_cons_self _ _) r hg
      simp only [applyToRecord_noop newStatus conf idate ts snippet multiNote r hst]
      rw [set_get_self df j r hg]
      rw [ih df (fun i hi => h i (List.mem_cons_of_mem _ hi))]
      simp

/-- One message either leaves the store untouched with an empty selection
(Oracle failure, not job-related, relevance skip, gate failure, or no
matching rows), or its effect is exactly the apply loop over `selOf`. -/
lemma processMessage_master (df : Store) (subject content : List Char)
    (ai : Option Judgement) (ts : List Char) :
    (selOf (immView df) subject content ai = [] ∧
      (processMessage df ⟨subject, content, ai⟩ ts).df = df ∧
      (processMessage df ⟨subject, content, ai⟩ ts).updates = 0) ∨
    (∃ j mn, ai = some j ∧
      (processMessage df ⟨subject, content, ai⟩ ts).df =
        (applyAll (j.status.getD []) j.confidence j.interview_date ts (snippetOf subject) mn df
          (selOf (immView df) subject content ai)).1 ∧
      (processMessage df ⟨subject, content, ai⟩ ts).updates =
        (applyAll (j.status.getD []) j.confidence j.interview_date ts (snippetOf subject) mn df
          (selOf (immView df) subject content ai)).2) := by
  rcases ai with _ | j
  · exact Or.inl ⟨rfl, rfl, rfl⟩
  · cases hjr : j.is_job_related
    · refine Or.inl ⟨?_, ?_, ?_⟩ <;>
        simp [processMessage, selOf, hjr]
    · cases hsk : relevanceSkip j
      · cases hg : gatePass
            (resolveCompany (uniqueList ((immView df).map (fun r => r.company))) j)
            j.status j.confidence
        · refine Or.inl ⟨?_, ?_, ?_⟩ <;>
            simp [processMessage, selOf, hjr, hsk, hg]
        · refine Or.inr ⟨j, multiNoteOf
            (narrowIndices (immView df) (matchingIndices (immView df)
              ((resolveCompany (uniqueList ((immView df).map (fun r => r.company))) j).getD []))
              (emailTextOf subject content)).length
            (idxWhere (immView df) (fun r => r.company =
              (resolveCompany (uniqueList ((immView df).map (fun r => r.company))) j).getD [])).length,
            rfl, ?_, ?_⟩ <;>
          simp [processMessage, selOf, hjr, hsk, hg]
      · refine Or.inl ⟨?_, ?_, ?_⟩ <;>
          simp [processMessage, selOf, hjr, hsk]

/-- A message never changes the store's immutable view. -/
lemma processMessage_immView (df : Store) (m : Msg) (ts : List Char) :
    immView (processMessage df m ts).df = immView df := by
  obtain ⟨subject, content, ai⟩ := m
  rcases processMessage_master df subject content ai ts with ⟨_, h, _⟩ | ⟨j, mn, _, h, _⟩
  · rw [h]
  · rw [h, applyAll_immView]

/-- A message never touches rows outside its selection. -/
lemma processMessage_get_nmem (df : Store) (m : Msg) (ts : List Char) (i : Nat)
    (h : i ∉ selOf (immView df) m.subject m.content m.ai) :
    (processMessage df m ts).df.get? i = df.get? i := by
  obtain ⟨subject, content, ai⟩ := m
  rcases processMessage_master df subject content ai ts with ⟨_, heq, _⟩ | ⟨j, mn, _, heq, _⟩
  · rw [heq]
  · rw [heq, applyAll_get_nmem _ _ _ _ _ _ _ _ _ h]

/-- A message leaves every selected row at its target status. -/
lemma processMessage_status_sel (df : Store) (m : Msg) (ts : List Char) (i : Nat)
    (hi : i ∈ selOf (immView df) m.subject m.content m.ai) (r' : Record)
    (hr : (processMessage df m ts).df.get? i = some r') :
    r'.status = targetStatus m := by
  obtain ⟨subject, content, ai⟩ := m
  rcases processMessage_master df subject content ai ts with ⟨hsel, heq, _⟩ | ⟨j, mn, hai, heq, _⟩
  · rw [hsel] at hi
    exact absurd hi (List.not_mem_nil i)
  · subst hai
    have hmap := applyAll_status_sel (j.status.getD []) j.confidence j.interview_date ts
      (snippetOf subject) mn _ df i hi
    rw [heq] at hr
    rw [hr] at hmap
    rcases hg : df.get? i with _ | r0
    · rw [hg] at hmap
      simp at hmap
    · rw [hg] at hmap
      simpa using hmap

/-- A message whose selected rows already hold its target status changes
nothing and counts zero updates. -/
lemma processMessage_noop (df : Store) (m : Msg) (ts : List Char)
    (h : ∀ i ∈ selOf (immView df) m.subject m.content m.ai,
      ∀ r, df.get? i = some r → r.status = targetStatus m) :
    (processMessage df m ts).df = df ∧ (processMessage df m ts).updates = 0 := by
  obtain ⟨subject, content, ai⟩ := m
  rcases processMessage_master df subject content ai ts with ⟨_, heq, hu⟩ | ⟨j, mn, hai, heq, hu⟩
  · exact ⟨heq, hu⟩
  · subst hai
    have hap := applyAll_noop (j.status.getD []) j.confidence j.interview_date ts
      (snippetOf subject) mn _ df h
    rw [heq, hu, hap]
    exact ⟨rfl, rfl⟩

/-- A whole pass never changes the store's immutable view. -/
lemma scanPass_immView : ∀ (msgs : List Msg) (df : Store) (ts : List Char),
    immView (scanPass msgs df ts).df = immView df := by
  intro msgs
  induction msgs with
  | nil => intro df ts; rfl
  | cons m rest ih =>
    intro df ts
    simp only [scanPass]
    rw [ih, processMessage_immView]

/-- A pass never touches rows selected by none of its messages. -/
lemma scanPass_frame : ∀ (msgs : List Msg) (df : Store) (ts : List Char) (i : Nat),
    (∀ m ∈ msgs, i ∉ selOf (immView df) m.subject m.content m.ai) →
    (scanPass msgs df ts).df.get? i = df.get? i := by
  intro msgs
  induction msgs with
  | nil => intro df ts i _; rfl
  | cons m0 rest ih =>
    intro df ts i h
    simp only [scanPass]
    have hiv := processMessage_immView df m0 ts
    have hrest : ∀ m ∈ rest,
        i ∉ selOf (immView (processMessage df m0 ts).df) m.subject m.content m.ai := by
      intro m hm
      rw [hiv]
      exact h m (List.mem_cons_of_mem _ hm)
    rw [ih _ ts i hrest, processMessage_get_nmem df m0 ts i (h m0 (List.mem_cons_self _ _))]

/-- After a pass, a row selected by some message holds that message's
target status, provided all messages selecting a common row agree. -/
lemma scanPass_status : ∀ (msgs : List Msg) (df : Store) (ts : List Char),
    (∀ m1 ∈ msgs, ∀ m2 ∈ msgs, ∀ i,
      i ∈ selOf (immView df) m1.subject m1.content m1.ai →
      i ∈ selOf (immView df) m2.subject m2.content m2.ai →
      targetStatus m1 = targetStatus m2) →
    ∀ m ∈ msgs, ∀ i, i ∈ selOf (immView df) m.subject m.content m.ai →
    ∀ r', (scanPass msgs df ts).df.get? i = some r' → r'.status = targetStatus m := by
  intro msgs
  induction msgs with
  | nil => intro df ts _ m hm; simp at hm
  | cons m0 rest ih =>
    intro df ts H m hm i hi r' hr
    simp only [scanPass] at hr
    have hiv := processMessage_immView df m0 ts
    have H0 : ∀ m1 ∈ rest, ∀ m2 ∈ rest, ∀ i,
        i ∈ selOf (immView (processMessage df m0 ts).df) m1.subject m1.content m1.ai →
        i ∈ selOf (immView (processMessage df m0 ts).df) m2.subject m2.content m2.ai →
        targetStatus m1 = targetStatus m2 := by
      intro m1 h1 m2 h2 i hi1 hi2
      rw [hiv] at hi1 hi2
      exact H m1 (List.mem_cons_of_mem _ h1) m2 (List.mem_cons_of_mem _ h2) i hi1 hi2
    rcases List.mem_cons.1 hm with rfl | hmr
    · by_cases hex : ∃ m' ∈ rest, i ∈ selOf (immView df) m'.subject m'.content m'.ai
      · obtain ⟨m', hm', hi'⟩ := hex
        have hst := ih _ ts H0 m' hm' i (by rw [hiv]; exact hi') r' hr
        rw [hst]
        exact (H m (List.mem_cons_self _ _) m' (List.mem_cons_of_mem _ hm') i hi hi').symm
      · push_neg at hex
        have hframe := scanPass_frame rest (processMessage df m ts).df ts i (by
          intro m' hm'
          rw [hiv]
          exact hex m' hm')
        rw [hframe] at hr
        exact processMessage_status_sel df m ts i hi r' hr
    · exact ih _ ts H0 m hmr i (by rw [hiv]; exact hi) r' hr

/-- A pass over a store whose selected rows already hold their target
statuses changes nothing and counts zero updates. -/
lemma scanPass_noop : ∀ (msgs : List Msg) (df : Store) (ts : List Char),
    (∀ m ∈ msgs, ∀ i ∈ selOf (immView df) m.subject m.content m.ai,
      ∀ r, df.get? i = some r → r.status = targetStatus m) →
    (scanPass msgs df ts).df = df ∧ (scanPass msgs df ts).updates = 0 := by
  intro msgs
  induction msgs with
  | nil => intro df ts _; exact ⟨rfl, rfl⟩
  | cons m0 rest ih =>
    intro df ts h
    obtain ⟨hdf, hupd⟩ := processMessage_noop df m0 ts (h m0 (List.mem_cons_self _ _))
    simp only [scanPass, hdf, hupd]
    obtain ⟨hdf2, hupd2⟩ := ih df ts (fun m hm => h m (List.mem_cons_of_mem _ hm))
    rw [hdf2, hupd2]
    exact ⟨rfl, rfl⟩

/-- C1 (amended): re-running the scan over the same messages, the same
judgements and the resulting store mutates nothing — zero record updates
and a bit-for-bit identical store — provided that any two messages that
select a common record carry the same new status.  (With conflicting
statuses for one record the source re-applies both on every pass; see the
counterexample.) -/
theorem reconciler_idempotent (msgs : List Msg) (df : Store) (ts ts' : List Char)
    (H : ∀ m1 ∈ msgs, ∀ m2 ∈ msgs, ∀ i,
      i ∈ selOf (immView df) m1.subject m1.content m1.ai →
      i ∈ selOf (immView df) m2.subject m2.content m2.ai →
      targetStatus m1 = targetStatus m2) :
    (scanPass msgs (scanPass msgs df ts).df ts').df = (scanPass msgs df ts).df ∧
    (scanPass msgs (scanPass msgs df ts).df ts').updates = 0 := by
  have hiv : immView (scanPass msgs df ts).df = immView df := scanPass_immView msgs df ts
  apply scanPass_noop
  intro m hm i hi r hr
  rw [hiv] at hi
  exact scanPass_status msgs df ts H m hm i hi r hr

/-- C1 (witness): one rejection message over a one-record store — the
second pass returns the store unchanged with zero updates. -/
theorem reconciler_idempotent_witness :
    (scanPass [⟨str "s", str "we regret to inform you",
        some ⟨true, some (str "Acme"), some (str "Acme"), some (str "Rejected"),
          mkRat 9 10, none, []⟩⟩]
      (scanPass [⟨str "s", str "we regret to inform you",
        some ⟨true, some (str "Acme"), some (str "Acme"), some (str "Rejected"),
          mkRat 9 10, none, []⟩⟩]
        [⟨str "J1", str "Engineer", str "Acme", [], str "Applied", some 5, none, none⟩]
        (str "t")).df (str "t2")).df =
      (scanPass [⟨str "s", str "we regret to inform you",
        some ⟨true, some (str "Acme"), some (str "Acme"), some (str "Rejected"),
          mkRat 9 10, none, []⟩⟩]
        [⟨str "J1", str "Engineer", str "Acme", [], str "Applied", some 5, none, none⟩]
        (str "t")).df ∧
    (scanPass [⟨str "s", str "we regret to inform you",
        some ⟨true, some (str "Acme"), some (str "Acme"), some (str "Rejected"),
          mkRat 9 10, none, []⟩⟩]
      (scanPass [⟨str "s", str "we regret to inform you",
        some ⟨true, some (str "Acme"), some (str "Acme"), some (str "Rejected"),
          mkRat 9 10, none, []⟩⟩]
        [⟨str "J1", str "Engineer", str "Acme", [], str "Applied", some 5, none, none⟩]
        (str "t")).df (str "t2")).updates = 0 :=
  reconciler_idempotent _ _ _ _ (by
    intro m1 h1 m2 h2 i _ _
    simp only [List.mem_singleton] at h1 h2
    subst h1
    subst h2
    rfl)

/-- C1 (counterexample): two messages in the same window assigning
`Rejected` and then `Interview Scheduled` to the same record make the
second pass re-apply both transitions: 2 record mutations, not zero. -/
theorem claim_c1_counterexample :
    (scanPass
      [⟨str "a", str "b", some ⟨true, some (str "Acme"), some (str "Acme"),
          some (str "Rejected"), mkRat 9 10, none, []⟩⟩,
       ⟨str "a", str "b", some ⟨true, some (str "Acme"), some (str "Acme"),
          some (str "Interview Scheduled"), mkRat 9 10, none, []⟩⟩]
      (scanPass
        [⟨str "a", str "b", some ⟨true, some (str "Acme"), some (str "Acme"),
            some (str "Rejected"), mkRat 9 10, none, []⟩⟩,
         ⟨str "a", str "b", some ⟨true, some (str "Acme"), some (str "Acme"),
            some (str "Interview Scheduled"), mkRat 9 10, none, []⟩⟩]
        [⟨str "J1", str "Engineer", str "Acme", [], str "Applied", some 5, none, none⟩]
        (str "t")).df (str "t")).updates = 2 ∧
    (2 : Nat) ≠ 0 := by decide

end JobAuto
